import Mathlib

/-!
Verification of the date-rolling core of `RustQuant_time`
(`src/crates/RustQuant_time/src/date_rolling.rs`).

The core dispatches a date-rolling convention to one of six per-convention
algorithms. The algorithms call the scan primitives `next_business_day` and
`previous_business_day` (declared in the sibling module, outside this crate
slice) and the calendar oracle `is_business_day`.

Embedding choices:
* a `Date` is a record of year (`Int`), month and day (`Nat`), mirroring the
  `time::Date` component view used by the code (month extraction, equality,
  next/previous calendar day); `time::Date` is restricted to years
  `-9999 ..= 9999`, and `Date.nextDay` / `Date.prevDay` return `none` exactly
  where `time`'s `next_day()` / `previous_day()` return `None`, which the
  Rust code turns into a panic via `.unwrap()`;
* a calendar is its oracle, an arbitrary function `Date → Bool`
  (`is_business_day`);
* the scanning loops are given explicit fuel and return `Option Date`:
  `none` models both a scan that has not yet found a business day within
  `fuel` candidate dates and a panic of `next_day().unwrap()`; a result
  `some r` for some fuel is exactly a terminating, panic-free run of the
  Rust loop returning `r`.
-/

namespace RustQuant

/-- A calendar date: year, month (1..12), day (1..31), mirroring the
component view of `time::Date`. -/
structure Date where
  year : Int
  month : Nat
  day : Nat
deriving DecidableEq, Repr

/-- Gregorian leap-year predicate, as implemented by the `time` crate. -/
def isLeapYear (y : Int) : Bool :=
  y % 4 == 0 && (y % 100 != 0 || y % 400 == 0)

/-- Number of days in a month of a given year (`time::util::days_in_year_month`). -/
def daysInMonth (y : Int) (m : Nat) : Nat :=
  if m = 2 then (if isLeapYear y then 29 else 28)
  else if m = 4 ∨ m = 6 ∨ m = 9 ∨ m = 11 then 30
  else 31

/-- A `Date` that `time::Date` can represent: year in `-9999 ..= 9999`,
month in `1 ..= 12`, day in `1 ..= daysInMonth`. -/
def Date.valid (d : Date) : Prop :=
  -9999 ≤ d.year ∧ d.year ≤ 9999 ∧ 1 ≤ d.month ∧ d.month ≤ 12 ∧
    1 ≤ d.day ∧ d.day ≤ daysInMonth d.year d.month

instance (d : Date) : Decidable d.valid := by
  unfold Date.valid; infer_instance

/-- The next calendar day (`time::Date::next_day`): `none` exactly at the
maximal representable date `9999-12-31`, where the Rust code's `.unwrap()`
would panic. -/
def Date.nextDay (d : Date) : Option Date :=
  if d.day < daysInMonth d.year d.month then some ⟨d.year, d.month, d.day + 1⟩
  else if d.month < 12 then some ⟨d.year, d.month + 1, 1⟩
  else if d.year < 9999 then some ⟨d.year + 1, 1, 1⟩
  else none

/-- The previous calendar day (`time::Date::previous_day`): `none` exactly at
the minimal representable date `-9999-01-01`. -/
def Date.prevDay (d : Date) : Option Date :=
  if 1 < d.day then some ⟨d.year, d.month, d.day - 1⟩
  else if 1 < d.month then some ⟨d.year, d.month - 1, daysInMonth d.year (d.month - 1)⟩
  else if -9999 < d.year then some ⟨d.year - 1, 12, 31⟩
  else none

/-- Calendar-date order on `Date`: lexicographic on (year, month, day). -/
def Date.le (a b : Date) : Prop :=
  a.year < b.year ∨ (a.year = b.year ∧
    (a.month < b.month ∨ (a.month = b.month ∧ a.day ≤ b.day)))

/-- Strict calendar-date order on `Date`. -/
def Date.lt (a b : Date) : Prop :=
  a.year < b.year ∨ (a.year = b.year ∧
    (a.month < b.month ∨ (a.month = b.month ∧ a.day < b.day)))

instance (a b : Date) : Decidable (Date.le a b) := by
  unfold Date.le; infer_instance

instance (a b : Date) : Decidable (Date.lt a b) := by
  unfold Date.lt; infer_instance

/-- Modelled from the spec: `next_business_day` is declared outside this
crate slice; the spec describes it as a forward scan one calendar day at a
time until the oracle reports true, whose first candidate check is the start
date itself ("if input is a business day return it, else return first
business day after it"). `fuel` bounds the number of candidate dates
examined; `none` also models a panic of `next_day().unwrap()` at the end of
the representable range. -/
def nextBusinessDay (cal : Date → Bool) : Nat → Date → Option Date
  | 0, _ => none
  | fuel + 1, d => if cal d then some d else d.nextDay.bind (nextBusinessDay cal fuel)

/-- Modelled from the spec: `previous_business_day`, the backward scan
symmetric to `next_business_day`. -/
def previousBusinessDay (cal : Date → Bool) : Nat → Date → Option Date
  | 0, _ => none
  | fuel + 1, d => if cal d then some d else d.prevDay.bind (previousBusinessDay cal fuel)

/-- Date rolling business day conventions (`enum DateRollingConvention`). -/
inductive DateRollingConvention where
  | Actual
  | Following
  | ModifiedFollowing
  | Preceding
  | ModifiedPreceding
  | ModifiedRolling
deriving DecidableEq, Repr

/-- Default date rolling convention (`impl Default for DateRollingConvention`):
`Actual`. -/
instance : Inhabited DateRollingConvention :=
  ⟨DateRollingConvention.Actual⟩

namespace DateRollingConvention

/-- The fixed label of each variant (`impl fmt::Display for DateRollingConvention`). -/
def display : DateRollingConvention → String
  | Actual => "Actual"
  | Following => "Following"
  | ModifiedFollowing => "Modified Following"
  | Preceding => "Preceding"
  | ModifiedPreceding => "Modified Preceding"
  | ModifiedRolling => "Modified Rolling"

/-- Adjust (roll) the date according: Actual convention. -/
def roll_date_actual (date : Date) (_cal : Date → Bool) : Option Date :=
  some date

/-- Adjust (roll) the date according: Following convention. -/
def roll_date_following (fuel : Nat) (date : Date) (cal : Date → Bool) : Option Date :=
  nextBusinessDay cal fuel date

/-- Adjust (roll) the date according: Modified following convention.
`new_date = next_business_day(date)`; if `new_date.month() != date.month()`
then `new_date = previous_business_day(date)`. -/
def roll_date_modified_following (fuel : Nat) (date : Date) (cal : Date → Bool) :
    Option Date :=
  match nextBusinessDay cal fuel date with
  | none => none
  | some new_date =>
      if new_date.month ≠ date.month then previousBusinessDay cal fuel date
      else some new_date

/-- Adjust (roll) the date according: Modified preceding convention.
`new_date = previous_business_day(date)`; if `new_date.month() != date.month()`
then `new_date = next_business_day(date)`. -/
def roll_date_modified_preceding (fuel : Nat) (date : Date) (cal : Date → Bool) :
    Option Date :=
  match previousBusinessDay cal fuel date with
  | none => none
  | some new_date =>
      if new_date.month ≠ date.month then nextBusinessDay cal fuel date
      else some new_date

/-- Adjust (roll) the date according: Modified rolling convention. The Rust
loop `while !calendar.is_business_day(new_date) { new_date = new_date.next_day().unwrap() }`
with explicit fuel; `none` is a run that exhausts the fuel or panics. -/
def roll_date_modified_rolling (cal : Date → Bool) : Nat → Date → Option Date
  | 0, _ => none
  | fuel + 1, d =>
      if cal d then some d else d.nextDay.bind (roll_date_modified_rolling cal fuel)

/-- Adjust (roll) the date according: Preceding convention. -/
def roll_date_preceding (fuel : Nat) (date : Date) (cal : Date → Bool) : Option Date :=
  previousBusinessDay cal fuel date

end DateRollingConvention

/-- The convention dispatch (`DateRoller::roll_date`). -/
def roll_date (cal : Date → Bool) (fuel : Nat) (date : Date) :
    DateRollingConvention → Option Date
  | DateRollingConvention.Actual =>
      DateRollingConvention.roll_date_actual date cal
  | DateRollingConvention.Following =>
      DateRollingConvention.roll_date_following fuel date cal
  | DateRollingConvention.ModifiedFollowing =>
      DateRollingConvention.roll_date_modified_following fuel date cal
  | DateRollingConvention.Preceding =>
      DateRollingConvention.roll_date_preceding fuel date cal
  | DateRollingConvention.ModifiedPreceding =>
      DateRollingConvention.roll_date_modified_preceding fuel date cal
  | DateRollingConvention.ModifiedRolling =>
      DateRollingConvention.roll_date_modified_rolling cal fuel date

/-- The batch roller (`DateRoller::roll_dates`): map `roll_date` over the list. -/
def roll_dates (cal : Date → Bool) (fuel : Nat) (dates : List Date)
    (convention : DateRollingConvention) : List (Option Date) :=
  dates.map (fun date => roll_date cal fuel date convention)

/-- Signed "day distance" bound used as a termination measure for forward
scans: an overestimate in 372ths-of-a-year units. -/
def dist (b d : Date) : Int :=
  (b.year - d.year) * 372 + ((b.month : Int) - (d.month : Int)) * 31 +
    ((b.day : Int) - (d.day : Int))

lemma daysInMonth_pos (y : Int) (m : Nat) : 1 ≤ daysInMonth y m := by
  unfold daysInMonth
  split_ifs <;> omega

lemma daysInMonth_le (y : Int) (m : Nat) : daysInMonth y m ≤ 31 := by
  unfold daysInMonth
  split_ifs <;> omega

lemma daysInMonth_twelve (y : Int) : daysInMonth y 12 = 31 := rfl

lemma dateLe_refl (d : Date) : Date.le d d := by
  unfold Date.le; omega

lemma dateLe_of_lt {a b : Date} (h : Date.lt a b) : Date.le a b := by
  unfold Date.lt at h; unfold Date.le; omega

lemma dateLe_trans {a b c : Date} (hab : Date.le a b) (hbc : Date.le b c) :
    Date.le a c := by
  unfold Date.le at *
  rcases hab with h | ⟨h, hm⟩ <;> rcases hbc with h2 | ⟨h2, hm2⟩ <;> omega

lemma dateLt_of_le_of_ne {a b : Date} (hle : Date.le a b) (hne : a ≠ b) :
    Date.lt a b := by
  obtain ⟨y1, m1, d1⟩ := a
  obtain ⟨y2, m2, d2⟩ := b
  simp only [ne_eq, Date.mk.injEq, not_and] at hne
  unfold Date.le at hle; unfold Date.lt
  dsimp only at hle ⊢
  by_cases hy : y1 = y2
  · subst hy
    by_cases hm : m1 = m2
    · subst hm
      have : d1 ≠ d2 := by intro h; exact hne rfl rfl h
      omega
    · omega
  · omega

lemma nextDay_lt {d d' : Date} (h : d.nextDay = some d') : Date.lt d d' := by
  unfold Date.nextDay at h
  split_ifs at h <;> injection h with h <;> subst h <;> unfold Date.lt <;> simp

lemma prevDay_lt {d d' : Date} (h : d.prevDay = some d') : Date.lt d' d := by
  obtain ⟨y, m, dd⟩ := d
  unfold Date.prevDay at h
  split_ifs at h with h1 h2 h3 <;> injection h with h <;> subst h <;>
    unfold Date.lt <;> simp at * <;> omega

/-- Key step lemma (forward): from a valid date strictly before a valid date
`b`, the next calendar day exists, is valid, and is still at or before `b`. -/
lemma nextDay_step {d b : Date} (hd : d.valid) (hb : b.valid) (hlt : Date.lt d b) :
    ∃ d', d.nextDay = some d' ∧ d'.valid ∧ Date.le d' b ∧
      dist b d' ≤ dist b d - 1 := by
  obtain ⟨y1, m1, d1⟩ := d
  obtain ⟨y2, m2, d2⟩ := b
  unfold Date.valid at hd hb
  unfold Date.lt at hlt
  unfold Date.nextDay
  simp only at *
  have hp1 := daysInMonth_pos y1 m1
  have hl1 := daysInMonth_le y1 m1
  have hp2 := daysInMonth_pos y2 m2
  have hl2 := daysInMonth_le y2 m2
  by_cases h1 : d1 < daysInMonth y1 m1
  · refine ⟨⟨y1, m1, d1 + 1⟩, by rw [if_pos h1], ?_, ?_, ?_⟩
    · unfold Date.valid; simp only; omega
    · unfold Date.le; simp only
      rcases hlt with h | ⟨rfl, h | ⟨rfl, h⟩⟩ <;> omega
    · unfold dist; simp only; omega
  · rw [if_neg h1]
    by_cases h2 : m1 < 12
    · have hp1' := daysInMonth_pos y1 (m1 + 1)
      refine ⟨⟨y1, m1 + 1, 1⟩, by rw [if_pos h2], ?_, ?_, ?_⟩
      · unfold Date.valid; simp only; omega
      · unfold Date.le; simp only
        rcases hlt with h | ⟨rfl, h | ⟨rfl, h⟩⟩ <;> omega
      · unfold dist; simp only; push_cast; omega
    · rw [if_neg h2]
      have hm12 : m1 = 12 := by omega
      subst hm12
      rw [daysInMonth_twelve] at h1 hd hp1 hl1
      have h3 : y1 < 9999 := by
        rcases hlt with h | ⟨rfl, h | ⟨rfl, h⟩⟩ <;> omega
      refine ⟨⟨y1 + 1, 1, 1⟩, by rw [if_pos h3], ?_, ?_, ?_⟩
      · unfold Date.valid; simp only
        have := daysInMonth_pos (y1 + 1) 1
        omega
      · unfold Date.le; simp only
        rcases hlt with h | ⟨rfl, h | ⟨rfl, h⟩⟩ <;> omega
      · unfold dist; simp only; push_cast; omega

/-- Key step lemma (backward): from a valid date strictly after a valid date
`b`, the previous calendar day exists, is valid, and is still at or after `b`. -/
lemma prevDay_step {d b : Date} (hd : d.valid) (hb : b.valid) (hlt : Date.lt b d) :
    ∃ d', d.prevDay = some d' ∧ d'.valid ∧ Date.le b d' := by
  obtain ⟨y1, m1, d1⟩ := d
  obtain ⟨y2, m2, d2⟩ := b
  unfold Date.valid at hd hb
  unfold Date.lt at hlt
  unfold Date.prevDay
  simp only at *
  have hp1 := daysInMonth_pos y1 m1
  have hl1 := daysInMonth_le y1 m1
  have hp2 := daysInMonth_pos y2 m2
  have hl2 := daysInMonth_le y2 m2
  by_cases h1 : 1 < d1
  · refine ⟨⟨y1, m1, d1 - 1⟩, by rw [if_pos h1], ?_, ?_⟩
    · unfold Date.valid; simp only; omega
    · unfold Date.le; simp only
      rcases hlt with h | ⟨rfl, h | ⟨rfl, h⟩⟩ <;> omega
  · rw [if_neg h1]
    by_cases h2 : 1 < m1
    · have hp1' := daysInMonth_pos y1 (m1 - 1)
      refine ⟨⟨y1, m1 - 1, daysInMonth y1 (m1 - 1)⟩, by rw [if_pos h2], ?_, ?_⟩
      · unfold Date.valid; simp only; omega
      · unfold Date.le; simp only
        rcases hlt with h | ⟨rfl, h | ⟨rfl, h⟩⟩
        · omega
        · by_cases hm : m2 = m1 - 1
          · subst hm; omega
          · omega
        · omega
    · rw [if_neg h2]
      have hm1 : m1 = 1 := by omega
      subst hm1
      have h3 : -9999 < y1 := by
        rcases hlt with h | ⟨rfl, h | ⟨rfl, h⟩⟩ <;> omega
      refine ⟨⟨y1 - 1, 12, 31⟩, by rw [if_pos h3], ?_, ?_⟩
      · unfold Date.valid; simp only
        rw [daysInMonth_twelve]; omega
      · unfold Date.le; simp only
        rcases hlt with h | ⟨rfl, h | ⟨rfl, h⟩⟩ <;> omega

lemma dist_pos_of_lt {d b : Date} (hd : d.valid) (hb : b.valid)
    (hlt : Date.lt d b) : 1 ≤ dist b d := by
  obtain ⟨y1, m1, d1⟩ := d
  obtain ⟨y2, m2, d2⟩ := b
  unfold Date.valid at hd hb
  unfold Date.lt at hlt
  unfold dist
  simp only at *
  have hl1 := daysInMonth_le y1 m1
  have hl2 := daysInMonth_le y2 m2
  rcases hlt with h | ⟨rfl, h | ⟨rfl, h⟩⟩ <;> omega

lemma nextBusinessDay_succ (cal : Date → Bool) (fuel : Nat) (d : Date) :
    nextBusinessDay cal (fuel + 1) d =
      if cal d then some d else d.nextDay.bind (nextBusinessDay cal fuel) := rfl

lemma previousBusinessDay_succ (cal : Date → Bool) (fuel : Nat) (d : Date) :
    previousBusinessDay cal (fuel + 1) d =
      if cal d then some d else d.prevDay.bind (previousBusinessDay cal fuel) := rfl

/-- Any result of the forward scan is at or after the start date. -/
lemma nextBusinessDay_ge {cal : Date → Bool} :
    ∀ fuel d r, nextBusinessDay cal fuel d = some r → Date.le d r := by
  intro fuel
  induction fuel with
  | zero => intro d r h; simp [nextBusinessDay] at h
  | succ n ih =>
      intro d r h
      rw [nextBusinessDay_succ] at h
      by_cases hc : cal d
      · rw [if_pos hc] at h
        injection h with h; subst h; exact dateLe_refl d
      · rw [if_neg hc] at h
        cases hnd : d.nextDay with
        | none => rw [hnd] at h; simp at h
        | some d' =>
            rw [hnd] at h
            simp only [Option.some_bind] at h
            exact dateLe_trans (dateLe_of_lt (nextDay_lt hnd)) (ih d' r h)

/-- Any result of the backward scan is at or before the start date. -/
lemma previousBusinessDay_le {cal : Date → Bool} :
    ∀ fuel d r, previousBusinessDay cal fuel d = some r → Date.le r d := by
  intro fuel
  induction fuel with
  | zero => intro d r h; simp [previousBusinessDay] at h
  | succ n ih =>
      intro d r h
      rw [previousBusinessDay_succ] at h
      by_cases hc : cal d
      · rw [if_pos hc] at h
        injection h with h; subst h; exact dateLe_refl d
      · rw [if_neg hc] at h
        cases hnd : d.prevDay with
        | none => rw [hnd] at h; simp at h
        | some d' =>
            rw [hnd] at h
            simp only [Option.some_bind] at h
            exact dateLe_trans (ih d' r h) (dateLe_of_lt (prevDay_lt hnd))

/-- Bounded forward scan: when a business day `b` lies (weakly) ahead of the
valid start date `d`, any `some` result of the forward scan lies in the
interval `[d, b]` and is a business day. -/
lemma nextBusinessDay_bounded {cal : Date → Bool} {b : Date}
    (hcalb : cal b = true) (hb : b.valid) :
    ∀ fuel d, d.valid → Date.le d b → ∀ r, nextBusinessDay cal fuel d = some r →
      Date.le d r ∧ Date.le r b ∧ cal r = true := by
  intro fuel
  induction fuel with
  | zero => intro d _ _ r h; simp [nextBusinessDay] at h
  | succ n ih =>
      intro d hd hdb r h
      rw [nextBusinessDay_succ] at h
      by_cases hc : cal d
      · rw [if_pos hc] at h
        injection h with h; subst h
        exact ⟨dateLe_refl d, hdb, hc⟩
      · rw [if_neg hc] at h
        have hne : d ≠ b := by
          intro he; rw [he] at hc; exact hc hcalb
        have hlt : Date.lt d b := dateLt_of_le_of_ne hdb hne
        obtain ⟨d', hnd, hd', hd'b, _⟩ := nextDay_step hd hb hlt
        rw [hnd] at h
        simp only [Option.some_bind] at h
        obtain ⟨h1, h2, h3⟩ := ih d' hd' hd'b r h
        exact ⟨dateLe_trans (dateLe_of_lt (nextDay_lt hnd)) h1, h2, h3⟩

/-- Bounded backward scan: when a business day `b` lies (weakly) behind the
valid start date `d`, any `some` result of the backward scan lies in the
interval `[b, d]` and is a business day. -/
lemma previousBusinessDay_bounded {cal : Date → Bool} {b : Date}
    (hcalb : cal b = true) (hb : b.valid) :
    ∀ fuel d, d.valid → Date.le b d → ∀ r, previousBusinessDay cal fuel d = some r →
      Date.le r d ∧ Date.le b r ∧ cal r = true := by
  intro fuel
  induction fuel with
  | zero => intro d _ _ r h; simp [previousBusinessDay] at h
  | succ n ih =>
      intro d hd hbd r h
      rw [previousBusinessDay_succ] at h
      by_cases hc : cal d
      · rw [if_pos hc] at h
        injection h with h; subst h
        exact ⟨dateLe_refl d, hbd, hc⟩
      · rw [if_neg hc] at h
        have hne : b ≠ d := by
          intro he; rw [← he] at hc; exact hc hcalb
        have hlt : Date.lt b d := dateLt_of_le_of_ne hbd hne
        obtain ⟨d', hnd, hd', hbd'⟩ := prevDay_step hd hb hlt
        rw [hnd] at h
        simp only [Option.some_bind] at h
        obtain ⟨h1, h2, h3⟩ := ih d' hd' hbd' r h
        exact ⟨dateLe_trans h1 (dateLe_of_lt (prevDay_lt hnd)), h2, h3⟩

/-- A date weakly between two dates of the same calendar month and year is
itself in that month and year. -/
lemma month_year_of_between {d r b : Date} (h1 : Date.le d r) (h2 : Date.le r b)
    (hm : b.month = d.month) (hy : b.year = d.year) :
    r.month = d.month ∧ r.year = d.year := by
  obtain ⟨y1, m1, d1⟩ := d
  obtain ⟨y2, m2, d2⟩ := r
  obtain ⟨y3, m3, d3⟩ := b
  unfold Date.le at h1 h2
  dsimp only at *
  subst hm hy
  omega

/-- A sample calendar for concrete evaluations: the business days are the 7th
and the 10th day of every month. -/
def sampleCal (d : Date) : Bool :=
  d.day == 7 || d.day == 10

/-- A pathological calendar for concrete evaluations: the only business day of
every year is January 1. -/
def janFirstCal (d : Date) : Bool :=
  d.month == 1 && d.day == 1

/-- C1: for every date `d` and every calendar, `roll_date(d, ModifiedFollowing)`
first computes Following's result (`next_business_day` from `d`); if the month
of that result differs from `d`'s month, it instead returns Preceding's result
(`previous_business_day` from the original `d`); the comparison is between the
rolled date's calendar month and the original date's calendar month. -/
theorem modified_following_is_following_else_preceding
    (cal : Date → Bool) (fuel : Nat) (d : Date) :
    roll_date cal fuel d DateRollingConvention.ModifiedFollowing =
      match roll_date cal fuel d DateRollingConvention.Following with
      | none => none
      | some n =>
          if n.month ≠ d.month then roll_date cal fuel d DateRollingConvention.Preceding
          else some n := by
  show DateRollingConvention.roll_date_modified_following fuel d cal = _
  unfold DateRollingConvention.roll_date_modified_following
  rfl

/-- C3: a single call `roll_date(d, ModifiedRolling)` returns the same result
as `roll_date(d, Following)`: the one-day-at-a-time forward scan of
ModifiedRolling is behaviorally identical to the `next_business_day`
primitive used by Following, and it applies no month-boundary exception. -/
theorem modified_rolling_eq_following (cal : Date → Bool) (fuel : Nat) (d : Date) :
    roll_date cal fuel d DateRollingConvention.ModifiedRolling =
      roll_date cal fuel d DateRollingConvention.Following := by
  show DateRollingConvention.roll_date_modified_rolling cal fuel d =
    nextBusinessDay cal fuel d
  induction fuel generalizing d with
  | zero => rfl
  | succ n ih =>
      show (if cal d then some d
          else d.nextDay.bind (DateRollingConvention.roll_date_modified_rolling cal n)) =
        if cal d then some d else d.nextDay.bind (nextBusinessDay cal n)
      by_cases hc : cal d
      · rw [if_pos hc, if_pos hc]
      · rw [if_neg hc, if_neg hc]
        cases d.nextDay with
        | none => rfl
        | some d' => simp only [Option.some_bind]; exact ih d'

/-- C4: a business day is a fixed point of both the forward and the backward
roll: if `is_business_day(d)` then `roll_date(d, Following) = d` and
`roll_date(d, Preceding) = d`. -/
theorem business_day_fixed_point_following_preceding
    (cal : Date → Bool) (fuel : Nat) (d : Date) (hfuel : 0 < fuel)
    (hd : cal d = true) :
    roll_date cal fuel d DateRollingConvention.Following = some d ∧
    roll_date cal fuel d DateRollingConvention.Preceding = some d := by
  obtain ⟨n, rfl⟩ : ∃ n, fuel = n + 1 := ⟨fuel - 1, by omega⟩
  constructor
  · show nextBusinessDay cal (n + 1) d = some d
    rw [nextBusinessDay_succ, if_pos hd]
  · show previousBusinessDay cal (n + 1) d = some d
    rw [previousBusinessDay_succ, if_pos hd]

/-- Witness for C4 at a concrete business day of `sampleCal`. -/
theorem business_day_fixed_point_following_preceding_witness :
    (0 : Nat) < 3 ∧ sampleCal ⟨2024, 6, 10⟩ = true ∧
    (roll_date sampleCal 3 ⟨2024, 6, 10⟩ DateRollingConvention.Following =
        some ⟨2024, 6, 10⟩ ∧
      roll_date sampleCal 3 ⟨2024, 6, 10⟩ DateRollingConvention.Preceding =
        some ⟨2024, 6, 10⟩) :=
  ⟨by decide, by decide,
    business_day_fixed_point_following_preceding sampleCal 3 ⟨2024, 6, 10⟩
      (by decide) (by decide)⟩

/-- C5: the forward roll never moves a date earlier and the backward roll
never moves a date later, under the calendar-date (lexicographic) order. -/
theorem roll_direction_invariant (cal : Date → Bool) (fuel : Nat) (d rf rp : Date)
    (hf : roll_date cal fuel d DateRollingConvention.Following = some rf)
    (hp : roll_date cal fuel d DateRollingConvention.Preceding = some rp) :
    Date.le d rf ∧ Date.le rp d :=
  ⟨nextBusinessDay_ge fuel d rf hf, previousBusinessDay_le fuel d rp hp⟩

/-- Witness for C5 at a concrete non-business day of `sampleCal`. -/
theorem roll_direction_invariant_witness :
    roll_date sampleCal 40 ⟨2024, 6, 8⟩ DateRollingConvention.Following =
        some ⟨2024, 6, 10⟩ ∧
    roll_date sampleCal 40 ⟨2024, 6, 8⟩ DateRollingConvention.Preceding =
        some ⟨2024, 6, 7⟩ ∧
    (Date.le ⟨2024, 6, 8⟩ ⟨2024, 6, 10⟩ ∧ Date.le ⟨2024, 6, 7⟩ ⟨2024, 6, 8⟩) :=
  ⟨by decide, by decide,
    roll_direction_invariant sampleCal 40 ⟨2024, 6, 8⟩ ⟨2024, 6, 10⟩ ⟨2024, 6, 7⟩
      (by decide) (by decide)⟩

/-- C6: the batch roller returns a list of the same length whose `i`-th
element is `roll_date` of the `i`-th input, order preserved, with no
interaction between elements. -/
theorem roll_dates_map_spec (cal : Date → Bool) (fuel : Nat)
    (dates : List Date) (c : DateRollingConvention) :
    (roll_dates cal fuel dates c).length = dates.length ∧
    ∀ i : Nat, (roll_dates cal fuel dates c)[i]? =
      (dates[i]?).map (fun d => roll_date cal fuel d c) := by
  constructor
  · simp [roll_dates]
  · intro i
    simp [roll_dates]

/-- C7: `Actual` is the identity transform, and the default value of
`DateRollingConvention` is `Actual`. -/
theorem actual_identity_and_default :
    (∀ (cal : Date → Bool) (fuel : Nat) (d : Date),
      roll_date cal fuel d DateRollingConvention.Actual = some d) ∧
    (default : DateRollingConvention) = DateRollingConvention.Actual :=
  ⟨fun _ _ _ => rfl, rfl⟩

/-- C8: the Display rendering maps each of the six variants to exactly its
fixed label. -/
theorem display_labels :
    DateRollingConvention.Actual.display = "Actual" ∧
    DateRollingConvention.Following.display = "Following" ∧
    DateRollingConvention.ModifiedFollowing.display = "Modified Following" ∧
    DateRollingConvention.Preceding.display = "Preceding" ∧
    DateRollingConvention.ModifiedPreceding.display = "Modified Preceding" ∧
    DateRollingConvention.ModifiedRolling.display = "Modified Rolling" :=
  ⟨rfl, rfl, rfl, rfl, rfl, rfl⟩

/-- C9: every convention (all six variants) leaves a date that is already a
business day unchanged: the scans return the date itself, so the
month-exception branches cannot fire and ModifiedRolling's loop body is never
entered. -/
theorem business_day_fixed_point_all_conventions
    (cal : Date → Bool) (fuel : Nat) (d : Date) (hfuel : 0 < fuel)
    (hd : cal d = true) (c : DateRollingConvention) :
    roll_date cal fuel d c = some d := by
  obtain ⟨n, rfl⟩ : ∃ n, fuel = n + 1 := ⟨fuel - 1, by omega⟩
  have hnext : nextBusinessDay cal (n + 1) d = some d := by
    rw [nextBusinessDay_succ, if_pos hd]
  have hprev : previousBusinessDay cal (n + 1) d = some d := by
    rw [previousBusinessDay_succ, if_pos hd]
  cases c with
  | Actual => rfl
  | Following => exact hnext
  | ModifiedFollowing =>
      show DateRollingConvention.roll_date_modified_following (n + 1) d cal = some d
      unfold DateRollingConvention.roll_date_modified_following
      rw [hnext]
      simp
  | Preceding => exact hprev
  | ModifiedPreceding =>
      show DateRollingConvention.roll_date_modified_preceding (n + 1) d cal = some d
      unfold DateRollingConvention.roll_date_modified_preceding
      rw [hprev]
      simp
  | ModifiedRolling =>
      show DateRollingConvention.roll_date_modified_rolling cal (n + 1) d = some d
      show (if cal d then some d
          else d.nextDay.bind (DateRollingConvention.roll_date_modified_rolling cal n)) =
        some d
      rw [if_pos hd]

/-- Witness for C9 at a concrete business day of `sampleCal`, for each of the
six conventions. -/
theorem business_day_fixed_point_all_conventions_witness :
    (0 : Nat) < 3 ∧ sampleCal ⟨2024, 6, 7⟩ = true ∧
    roll_date sampleCal 3 ⟨2024, 6, 7⟩ DateRollingConvention.Actual = some ⟨2024, 6, 7⟩ ∧
    roll_date sampleCal 3 ⟨2024, 6, 7⟩ DateRollingConvention.Following = some ⟨2024, 6, 7⟩ ∧
    roll_date sampleCal 3 ⟨2024, 6, 7⟩ DateRollingConvention.ModifiedFollowing =
      some ⟨2024, 6, 7⟩ ∧
    roll_date sampleCal 3 ⟨2024, 6, 7⟩ DateRollingConvention.Preceding = some ⟨2024, 6, 7⟩ ∧
    roll_date sampleCal 3 ⟨2024, 6, 7⟩ DateRollingConvention.ModifiedPreceding =
      some ⟨2024, 6, 7⟩ ∧
    roll_date sampleCal 3 ⟨2024, 6, 7⟩ DateRollingConvention.ModifiedRolling =
      some ⟨2024, 6, 7⟩ :=
  ⟨by decide, by decide,
    business_day_fixed_point_all_conventions sampleCal 3 ⟨2024, 6, 7⟩
      (by decide) (by decide) DateRollingConvention.Actual,
    business_day_fixed_point_all_conventions sampleCal 3 ⟨2024, 6, 7⟩
      (by decide) (by decide) DateRollingConvention.Following,
    business_day_fixed_point_all_conventions sampleCal 3 ⟨2024, 6, 7⟩
      (by decide) (by decide) DateRollingConvention.ModifiedFollowing,
    business_day_fixed_point_all_conventions sampleCal 3 ⟨2024, 6, 7⟩
      (by decide) (by decide) DateRollingConvention.Preceding,
    business_day_fixed_point_all_conventions sampleCal 3 ⟨2024, 6, 7⟩
      (by decide) (by decide) DateRollingConvention.ModifiedPreceding,
    business_day_fixed_point_all_conventions sampleCal 3 ⟨2024, 6, 7⟩
      (by decide) (by decide) DateRollingConvention.ModifiedRolling⟩

/-- C2 counterexample: `janFirstCal` has a business day (2024-01-01) in the
calendar month of d = 2024-01-02, yet `roll_date(d, ModifiedFollowing)`
returns 2025-01-01: the forward scan jumps to the next year's January, the
month-number comparison (1 = 1) does not fire the exception, and the result
is outside d's calendar month-and-year. -/
theorem month_containment_counterexample :
    janFirstCal ⟨2024, 1, 1⟩ = true ∧ Date.valid ⟨2024, 1, 1⟩ ∧
    (⟨2024, 1, 1⟩ : Date).month = (⟨2024, 1, 2⟩ : Date).month ∧
    (⟨2024, 1, 1⟩ : Date).year = (⟨2024, 1, 2⟩ : Date).year ∧
    roll_date janFirstCal 400 ⟨2024, 1, 2⟩ DateRollingConvention.ModifiedFollowing =
      some ⟨2025, 1, 1⟩ ∧
    (⟨2025, 1, 1⟩ : Date).year ≠ (⟨2024, 1, 2⟩ : Date).year := by
  refine ⟨by decide, by decide, by decide, by decide, ?_, by decide⟩
  set_option maxRecDepth 20000 in decide

/-- C2 amended: whenever the calendar has a business day in `d`'s calendar
month and year at or after `d`, and one at or before `d`, then
`roll_date(d, ModifiedFollowing)` and `roll_date(d, ModifiedPreceding)` both
return a date in the same calendar month and year as `d`. -/
theorem month_containment_amended (cal : Date → Bool) (fuel : Nat)
    (d bf bp rf rp : Date)
    (hd : d.valid) (hbf : bf.valid) (hbp : bp.valid)
    (hdbf : Date.le d bf) (hbfm : bf.month = d.month) (hbfy : bf.year = d.year)
    (hcalbf : cal bf = true)
    (hbpd : Date.le bp d) (hbpm : bp.month = d.month) (hbpy : bp.year = d.year)
    (hcalbp : cal bp = true)
    (hmf : roll_date cal fuel d DateRollingConvention.ModifiedFollowing = some rf)
    (hmp : roll_date cal fuel d DateRollingConvention.ModifiedPreceding = some rp) :
    (rf.month = d.month ∧ rf.year = d.year) ∧
    (rp.month = d.month ∧ rp.year = d.year) := by
  constructor
  · have hmf' : DateRollingConvention.roll_date_modified_following fuel d cal =
        some rf := hmf
    unfold DateRollingConvention.roll_date_modified_following at hmf'
    split at hmf'
    · exact absurd hmf' (by simp)
    · rename_i n hn
      obtain ⟨h1, h2, _⟩ := nextBusinessDay_bounded hcalbf hbf fuel d hd hdbf n hn
      obtain ⟨hm, hy⟩ := month_year_of_between h1 h2 hbfm hbfy
      rw [if_neg (not_ne_iff.mpr hm)] at hmf'
      injection hmf' with hmf'
      subst hmf'
      exact ⟨hm, hy⟩
  · have hmp' : DateRollingConvention.roll_date_modified_preceding fuel d cal =
        some rp := hmp
    unfold DateRollingConvention.roll_date_modified_preceding at hmp'
    split at hmp'
    · exact absurd hmp' (by simp)
    · rename_i n hn
      obtain ⟨h1, h2, _⟩ := previousBusinessDay_bounded hcalbp hbp fuel d hd hbpd n hn
      obtain ⟨hm, hy⟩ := month_year_of_between h2 h1 hbpm.symm hbpy.symm
      rw [hbpm] at hm
      rw [hbpy] at hy
      rw [if_neg (not_ne_iff.mpr hm)] at hmp'
      injection hmp' with hmp'
      subst hmp'
      exact ⟨hm, hy⟩

/-- Witness for the amended C2 at a concrete non-business day of `sampleCal`,
with business days 2024-06-10 (at or after) and 2024-06-07 (at or before) in
the same month. -/
theorem month_containment_amended_witness :
    Date.valid ⟨2024, 6, 8⟩ ∧ Date.valid ⟨2024, 6, 10⟩ ∧ Date.valid ⟨2024, 6, 7⟩ ∧
    Date.le ⟨2024, 6, 8⟩ ⟨2024, 6, 10⟩ ∧ Date.le ⟨2024, 6, 7⟩ ⟨2024, 6, 8⟩ ∧
    sampleCal ⟨2024, 6, 10⟩ = true ∧ sampleCal ⟨2024, 6, 7⟩ = true ∧
    roll_date sampleCal 40 ⟨2024, 6, 8⟩ DateRollingConvention.ModifiedFollowing =
      some ⟨2024, 6, 10⟩ ∧
    roll_date sampleCal 40 ⟨2024, 6, 8⟩ DateRollingConvention.ModifiedPreceding =
      some ⟨2024, 6, 7⟩ ∧
    (((⟨2024, 6, 10⟩ : Date).month = (⟨2024, 6, 8⟩ : Date).month ∧
        (⟨2024, 6, 10⟩ : Date).year = (⟨2024, 6, 8⟩ : Date).year) ∧
      ((⟨2024, 6, 7⟩ : Date).month = (⟨2024, 6, 8⟩ : Date).month ∧
        (⟨2024, 6, 7⟩ : Date).year = (⟨2024, 6, 8⟩ : Date).year)) :=
  ⟨by decide, by decide, by decide, by decide, by decide, by decide, by decide,
    by decide, by decide,
    month_containment_amended sampleCal 40 ⟨2024, 6, 8⟩ ⟨2024, 6, 10⟩ ⟨2024, 6, 7⟩
      ⟨2024, 6, 10⟩ ⟨2024, 6, 7⟩ (by decide) (by decide) (by decide) (by decide)
      (by decide) (by decide) (by decide) (by decide) (by decide) (by decide)
      (by decide) (by decide) (by decide)⟩

/-- Fueled reachability for C10: within `n + 1` loop iterations, the
ModifiedRolling scan starting at a valid date `d` at or before a valid
business day `b` with `dist b d ≤ n` reaches a business day. -/
lemma modified_rolling_reaches {cal : Date → Bool} {b : Date}
    (hcalb : cal b = true) (hb : b.valid) :
    ∀ (n : Nat) (d : Date), d.valid → Date.le d b → dist b d ≤ (n : Int) →
      ∃ r, DateRollingConvention.roll_date_modified_rolling cal (n + 1) d = some r ∧
        cal r = true := by
  intro n
  induction n with
  | zero =>
      intro d hd hdb hdist
      by_cases hc : cal d
      · refine ⟨d, ?_, hc⟩
        show (if cal d then some d else _) = some d
        rw [if_pos hc]
      · exfalso
        have hne : d ≠ b := fun he => by rw [he] at hc; exact hc hcalb
        have hpos := dist_pos_of_lt hd hb (dateLt_of_le_of_ne hdb hne)
        simp only [Nat.cast_zero] at hdist
        omega
  | succ n ih =>
      intro d hd hdb hdist
      by_cases hc : cal d
      · refine ⟨d, ?_, hc⟩
        show (if cal d then some d else _) = some d
        rw [if_pos hc]
      · have hne : d ≠ b := fun he => by rw [he] at hc; exact hc hcalb
        have hlt := dateLt_of_le_of_ne hdb hne
        obtain ⟨d', hnd, hd', hd'b, hdec⟩ := nextDay_step hd hb hlt
        obtain ⟨r, hr, hcr⟩ := ih d' hd' hd'b (by push_cast at hdist ⊢; omega)
        refine ⟨r, ?_, hcr⟩
        show (if cal d then some d
            else d.nextDay.bind (DateRollingConvention.roll_date_modified_rolling cal (n + 1))) =
          some r
        rw [if_neg hc, hnd]
        simpa using hr

/-- C10: when some business day exists at or after the input date within the
representable range, `roll_date(d, ModifiedRolling)` terminates without
reaching the panic branch of `next_day().unwrap()`: for sufficient fuel the
loop returns a business day (a `some` result, which a fuel-exhausted or
panicking run never produces). -/
theorem modified_rolling_terminates (cal : Date → Bool) (d b : Date)
    (hd : d.valid) (hb : b.valid) (hdb : Date.le d b) (hcalb : cal b = true) :
    ∃ fuel r, roll_date cal fuel d DateRollingConvention.ModifiedRolling = some r ∧
      cal r = true := by
  obtain ⟨r, hr, hcr⟩ :=
    modified_rolling_reaches hcalb hb (dist b d).toNat d hd hdb (Int.self_le_toNat _)
  exact ⟨(dist b d).toNat + 1, r, hr, hcr⟩

/-- Witness for C10 at a concrete non-business day of `sampleCal`. -/
theorem modified_rolling_terminates_witness :
    Date.valid ⟨2024, 6, 8⟩ ∧ Date.valid ⟨2024, 6, 10⟩ ∧
    Date.le ⟨2024, 6, 8⟩ ⟨2024, 6, 10⟩ ∧ sampleCal ⟨2024, 6, 10⟩ = true ∧
    (∃ fuel r,
      roll_date sampleCal fuel ⟨2024, 6, 8⟩ DateRollingConvention.ModifiedRolling =
        some r ∧ sampleCal r = true) :=
  ⟨by decide, by decide, by decide, by decide,
    modified_rolling_terminates sampleCal ⟨2024, 6, 8⟩ ⟨2024, 6, 10⟩
      (by decide) (by decide) (by decide) (by decide)⟩

end RustQuant
